import Mathlib

/-!
# The run loop of the MSU host driver (`src/msu/sw/main.cpp`)

A shallow embedding of the iterate-and-checkpoint loop of `main` and proofs about
the jobs it dispatches to the device.

* `uint64_t` values are natural numbers, with `% U64` written wherever the C++
  arithmetic can wrap.
* `int` values are integers. The accumulation `failures += ...` is reduced to
  32-bit two's complement; a signed overflow is undefined in C++, and every
  statement below about the value of `failures` assumes counts for which none
  occurs.
* `mpz_t` values are integers.
* `MSU.hpp` is not part of the sources, so the object `msu` is a parameter: any
  state type with `run_fixed`, `run_random` and the field `reduced_out`. A state
  type can hold a stream of outcomes, so this covers a device that behaves at
  random.
* The `while` loop need not terminate (its counter can wrap), so it is run with
  fuel: the number of loop bodies one `while` loop may execute.
* The list of dispatched jobs is returned next to the result of the program; it
  is returned as well when the fuel runs out, so a statement about every job of
  every run length covers the runs that never end.
* Output (`printf`) is not modelled; the number printed on line 188 is kept in
  the record of the job.
-/

namespace Msu

/-- Number of values of a `uint64_t`. -/
def U64 : Nat := 2 ^ 64

/-- Reduction of an integer to the range of a 32-bit two's complement `int`. -/
def wrapInt32 (z : Int) : Int := (z + 2 ^ 31) % 2 ^ 32 - 2 ^ 31

/-- The object `msu` as `main` uses it. `run_fixed t_start t_final sq_in hw_emu` and
`run_random t_start t_final rrandom hw_emu` return an `int` and change the object;
`reduced_out` is the field read back after each job. -/
structure MSU (σ : Type) where
  run_fixed : σ → Nat → Nat → Int → Bool → Int × σ
  run_random : σ → Nat → Nat → Bool → Bool → Int × σ
  reduced_out : σ → Int

/-- The variables of `main` set from the command line (lines 64-127). -/
structure Config where
  test_iterations : Int
  t_final : Nat
  intermediate_iters : Nat
  sq_in : Int
  rrandom : Bool
  hw_emu : Bool

/-- One call of `msu.run_fixed` or `msu.run_random`, as made on lines 170-176,
with what came back from it. -/
structure Job where
  /-- Value of the `for` counter `test`. -/
  test : Nat
  /-- Value of `iter` when the job is dispatched. -/
  iter : Nat
  /-- Whether the call is `run_fixed` (else `run_random`). -/
  fixed : Bool
  t_start : Nat
  run_t_final : Nat
  /-- Value of the variable `sq_in` when the job is dispatched. -/
  sq_in : Int
  /-- The `int` returned by the call. -/
  failures : Int
  /-- Content of `msu.reduced_out` after the call. -/
  reduced_out : Int
  /-- Value of `iter` after line 178, the number printed on line 188. -/
  iter_after : Nat
deriving DecidableEq, Repr

/-- The variables that live across loop bodies, `iter` apart. -/
structure RunState (σ : Type) where
  sq_in : Int
  failures : Int
  msu : σ

/-- How a loop ends. -/
inductive Flow (σ : Type) where
  /-- The loop condition became false. -/
  | done (st : RunState σ)
  /-- Line 183, `return(failures)`, was executed. -/
  | ret (code : Int)
  /-- The fuel ran out. -/
  | timeout

/-- Lines 165-168: the iteration count given to the next job. The subtraction
is only evaluated under the loop condition `iter < t_final`. -/
def runTFinal (t_final intermediate_iters iter : Nat) : Nat :=
  if (intermediate_iters + iter) % U64 > t_final then t_final - iter
  else intermediate_iters

/-- Lines 165-179: one body of the `while` loop up to the test of `failures`.
Returns the job, the new `iter` and the new variables. -/
def loopBody {σ : Type} (dev : MSU σ) (cfg : Config) (test iter : Nat)
    (st : RunState σ) : Job × Nat × RunState σ :=
  let run_t_final := runTFinal cfg.t_final cfg.intermediate_iters iter
  let r := if st.sq_in ≠ 0 then dev.run_fixed st.msu 0 run_t_final st.sq_in cfg.hw_emu
    else dev.run_random st.msu 0 run_t_final cfg.rrandom cfg.hw_emu
  let failures := wrapInt32 (st.failures + r.1)
  let iter' := (iter + cfg.intermediate_iters) % U64
  let sq_in' := dev.reduced_out r.2
  ({ test := test, iter := iter, fixed := decide (st.sq_in ≠ 0), t_start := 0,
     run_t_final := run_t_final, sq_in := st.sq_in, failures := r.1,
     reduced_out := sq_in', iter_after := iter' },
   iter', { sq_in := sq_in', failures := failures, msu := r.2 })

/-- Lines 164-191: the `while` loop, started at the given value of `iter`. -/
def whileLoop {σ : Type} (dev : MSU σ) (cfg : Config) (test : Nat) :
    Nat → Nat → RunState σ → Flow σ × List Job
  | 0, iter, st => if iter < cfg.t_final then (.timeout, []) else (.done st, [])
  | fuel + 1, iter, st =>
    if iter < cfg.t_final then
      let b := loopBody dev cfg test iter st
      if b.2.2.failures > 0 then (.ret b.2.2.failures, [b.1])
      else
        let r := whileLoop dev cfg test fuel b.2.1 b.2.2
        (r.1, b.1 :: r.2)
    else (.done st, [])

/-- Lines 163-191: one test iteration, `iter` starting at `0`. -/
def testIteration {σ : Type} (dev : MSU σ) (cfg : Config) (test fuel : Nat)
    (st : RunState σ) : Flow σ × List Job :=
  whileLoop dev cfg test fuel 0 st

/-- Lines 162-192: the `for` loop, with `n` test iterations left to run. -/
def forLoop {σ : Type} (dev : MSU σ) (cfg : Config) (fuel : Nat) :
    Nat → Nat → RunState σ → Flow σ × List Job
  | 0, _, st => (.done st, [])
  | n + 1, test, st =>
    match testIteration dev cfg test fuel st with
    | (.done st', tr) =>
      let r := forLoop dev cfg fuel n (test + 1) st'
      (r.1, tr ++ r.2)
    | (r, tr) => (r, tr)

/-- Lines 156-158: an unset checkpoint interval becomes `t_final`. -/
def setInterval (cfg : Config) : Config :=
  { cfg with intermediate_iters :=
      if cfg.intermediate_iters = 0 then cfg.t_final else cfg.intermediate_iters }

/-- The value `main` returns: `failures`, on line 183 or on line 197; nothing
when the fuel ran out. -/
def Flow.code {σ : Type} : Flow σ → Option Int
  | .done st => some st.failures
  | .ret code => some code
  | .timeout => none

/-- Lines 156-197 of `main`, run on the object `msu` in state `s0`: the value
returned (`none` when a `while` loop runs out of fuel) and the jobs dispatched. -/
def main {σ : Type} (dev : MSU σ) (cfg : Config) (s0 : σ) (fuel : Nat) :
    Option Int × List Job :=
  let r := forLoop dev (setInterval cfg) fuel cfg.test_iterations.toNat 0
    { sq_in := cfg.sq_in, failures := 0, msu := s0 }
  (r.1.code, r.2)

/-- The number of jobs a test iteration of `t` squarings needs with checkpoint
interval `c`: `t / c` rounded up. -/
def ceilDiv (t c : Nat) : Nat := (t + c - 1) / c

/-- The counter `iter` stays below `2 ^ 64` during a test iteration: its last
value, the interval times the number of jobs, is representable. -/
def NoWrap (cfg : Config) : Prop :=
  cfg.intermediate_iters * ceilDiv cfg.t_final cfg.intermediate_iters < U64

instance (cfg : Config) : Decidable (NoWrap cfg) := by
  unfold NoWrap; infer_instance

/-- The `int` each job of the list returned is a count of failures: it is not
negative. -/
def Counts (tr : List Job) : Prop := ∀ j ∈ tr, 0 ≤ j.failures ∧ j.failures < 2 ^ 31

instance (tr : List Job) : Decidable (Counts tr) := by
  unfold Counts; infer_instance

/-- No job reports a failure. -/
def NoFailures {σ : Type} (dev : MSU σ) : Prop :=
  (∀ s a b x e, (dev.run_fixed s a b x e).1 = 0) ∧
  (∀ s a b r e, (dev.run_random s a b r e).1 = 0)

/-- A job of `t` squarings from the start value `x` reports no failure and leaves
`x ^ (2 ^ t) % N` in `reduced_out`. -/
def SquaresExactly {σ : Type} (dev : MSU σ) (N : Int) : Prop :=
  ∀ s a t x e, (dev.run_fixed s a t x e).1 = 0 ∧
    dev.reduced_out (dev.run_fixed s a t x e).2 = x ^ (2 ^ t) % N

/-- Modelled from the spec: the class `MSU` is not in the sources; this instance
computes the chain of modular squarings `x_{i+1} = x_i^2 mod N` exactly. A job of
`t` squarings from `x` leaves `x ^ (2 ^ t) % N` in `reduced_out` and reports no
failure. On the random path the start value is `r`. The state is the content of
`reduced_out`. -/
def exactDevice (N r : Int) : MSU Int where
  run_fixed := fun _ _ t x _ => (0, x ^ (2 ^ t) % N)
  run_random := fun _ _ t _ _ => (0, r ^ (2 ^ t) % N)
  reduced_out := fun s => s

/-- An instance of `msu` for the examples: it reports no failure and leaves `1` in
`reduced_out`. -/
def quietDevice : MSU Unit where
  run_fixed := fun _ _ _ _ _ => (0, ())
  run_random := fun _ _ _ _ _ => (0, ())
  reduced_out := fun _ => 1

/-- No job of the list reported a failure. -/
def Clean (tr : List Job) : Prop := ∀ j ∈ tr, j.failures = 0

/-- How a loop can end when `failures` was `0` before it and its jobs return
counts: it runs to completion (or out of fuel) without any failure reported, or it
returns the count of its last job, the only one that reported failures. -/
def Outcome {σ : Type} (r : Flow σ × List Job) : Prop :=
  match r.1 with
  | .done st => Clean r.2 ∧ st.failures = 0
  | .ret code => ∃ init j, r.2 = init ++ [j] ∧ Clean init ∧ j.failures = code ∧ 0 < code
  | .timeout => Clean r.2

/-- What the counter shows of a job: `iter` at dispatch, the iteration count of
the job, `iter` after line 178. -/
def Job.params (j : Job) : Nat × Nat × Nat := (j.iter, j.run_t_final, j.iter_after)

/-- The `m`-th job (from `0`) of a test iteration of `t` squarings with interval
`c`, as long as the counter does not wrap: it starts at `m * c`, runs `c` squarings
or what is left of `t`, and moves the counter to `(m + 1) * c`. -/
def planned (t c m : Nat) : Nat × Nat × Nat := (m * c, min c (t - m * c), (m + 1) * c)

/-- The jobs of a test iteration from the `k`-th on. -/
def planFrom (t c k : Nat) : List (Nat × Nat × Nat) :=
  (List.range' k (ceilDiv t c - k)).map (planned t c)

/-- The last element of `s :: R`. -/
def lastFrom (s : Int) : List Int → Int
  | [] => s
  | a :: R => lastFrom a R

/-- Three failures for the second job, none for the others. -/
def flakyCount (s : Nat) : Int := if s = 1 then 3 else 0

/-- An instance of `msu` for the examples: its second job reports three failures
and every other job none. The state counts the jobs run. -/
def flakyDevice : MSU Nat where
  run_fixed := fun s _ _ _ _ => (flakyCount s, s + 1)
  run_random := fun s _ _ _ _ => (flakyCount s, s + 1)
  reduced_out := fun _ => 1

/-- Host `-f 10 -t 3 -s 0x2`: ten squarings from `2`, checkpoints every three. -/
def tenByThree : Config :=
  { test_iterations := 1, t_final := 10, intermediate_iters := 3, sq_in := 2,
    rrandom := false, hw_emu := false }

/-- Host `-i 2 -f 10 -t 3 -s 0x2`: two test iterations of `tenByThree`. -/
def twiceTenByThree : Config := { tenByThree with test_iterations := 2 }

/-- Host `-f 10 -t 10 -s 0x2`: ten squarings from `2` in one job. -/
def tenByTen : Config := { tenByThree with intermediate_iters := 10 }

/-- Host `-f 3 -t 1 -s 0x2`: three squarings from `2`, one per job. -/
def threeByOne : Config :=
  { test_iterations := 1, t_final := 3, intermediate_iters := 1, sq_in := 2,
    rrandom := false, hw_emu := false }

/-- Host `-f 2 -t 1 -s 0x2`: two squarings from `2`, one per job. -/
def twoByOne : Config :=
  { test_iterations := 1, t_final := 2, intermediate_iters := 1, sq_in := 2,
    rrandom := false, hw_emu := false }

/-- Host `-f 2 -t 1 -s 0x3`: two squarings from `3`, one per job. -/
def twoByOneFromThree : Config := { twoByOne with sq_in := 3 }

/-- Host `-i 2 -f 2 -t 1 -s 0x2`: two test iterations of two squarings from `2`, one
per job. -/
def twiceTwoByOne : Config := { twoByOne with test_iterations := 2 }

/-- Host `-i 2 -f 1 -s 0x2`: two test iterations of one squaring from `2`, no
checkpoint interval given. -/
def twoTests : Config :=
  { test_iterations := 2, t_final := 1, intermediate_iters := 0, sq_in := 2,
    rrandom := false, hw_emu := false }

/-- Host `-f 5 -s 0x2`: five squarings from `2`, no checkpoint interval given. -/
def fiveUnset : Config :=
  { test_iterations := 1, t_final := 5, intermediate_iters := 0, sq_in := 2,
    rrandom := false, hw_emu := false }

/-- Host `-f -1 -t 8737931403336103397 -s 0x2`: `atol` gives `-1`, so `t_final` is
`2 ^ 64 - 1`; nineteen intervals are `9 * 2 ^ 64 - 1`, so the counter wraps eight
times before it meets `t_final`. -/
def wrapNineteen : Config :=
  { test_iterations := 1, t_final := 2 ^ 64 - 1,
    intermediate_iters := (9 * 2 ^ 64 - 1) / 19,
    sq_in := 2, rrandom := false, hw_emu := false }

/-- Host `-f -1 -t 8198552921648689607 -s 0x2`: `t_final` is `2 ^ 64 - 1` and nine
intervals are `4 * 2 ^ 64 - 1`, so the counter wraps three times before it meets
`t_final`. -/
def wrapNine : Config :=
  { test_iterations := 1, t_final := 2 ^ 64 - 1, intermediate_iters := (2 ^ 66 - 1) / 9,
    sq_in := 2, rrandom := false, hw_emu := false }

/-- Host `-f -1 -t -9223372036854775808 -s 0x2`: `t_final` is `2 ^ 64 - 1` and the
interval `2 ^ 63`, so the counter alternates between `0` and `2 ^ 63`. -/
def wrapHalf : Config :=
  { test_iterations := 1, t_final := 2 ^ 64 - 1, intermediate_iters := 2 ^ 63,
    sq_in := 2, rrandom := false, hw_emu := false }

/-! ## Unfolding the loops -/

theorem whileLoop_exit {σ : Type} (dev : MSU σ) (cfg : Config) (test fuel iter : Nat)
    (st : RunState σ) (h : ¬ iter < cfg.t_final) :
    whileLoop dev cfg test fuel iter st = (.done st, []) := by
  cases fuel <;> simp [whileLoop, h]

theorem whileLoop_step {σ : Type} (dev : MSU σ) (cfg : Config) (test fuel iter : Nat)
    (st : RunState σ) (h : iter < cfg.t_final) :
    whileLoop dev cfg test (fuel + 1) iter st =
      if (loopBody dev cfg test iter st).2.2.failures > 0 then
        (.ret (loopBody dev cfg test iter st).2.2.failures, [(loopBody dev cfg test iter st).1])
      else
        ((whileLoop dev cfg test fuel (loopBody dev cfg test iter st).2.1
            (loopBody dev cfg test iter st).2.2).1,
          (loopBody dev cfg test iter st).1 ::
            (whileLoop dev cfg test fuel (loopBody dev cfg test iter st).2.1
              (loopBody dev cfg test iter st).2.2).2) := by
  simp [whileLoop, h]

theorem whileLoop_zero {σ : Type} (dev : MSU σ) (cfg : Config) (test iter : Nat)
    (st : RunState σ) (h : iter < cfg.t_final) :
    whileLoop dev cfg test 0 iter st = (.timeout, []) := by
  simp [whileLoop, h]

theorem forLoop_succ {σ : Type} (dev : MSU σ) (cfg : Config) (fuel n test : Nat)
    (st : RunState σ) :
    forLoop dev cfg fuel (n + 1) test st =
      match testIteration dev cfg test fuel st with
      | (.done st', tr) =>
        ((forLoop dev cfg fuel n (test + 1) st').1,
          tr ++ (forLoop dev cfg fuel n (test + 1) st').2)
      | (r, tr) => (r, tr) := by
  rw [forLoop]

/-! ## Properties of every job: an invariant rule -/

/-- Assume `I` holds of the variables before the loop, every loop body started
with `I` dispatches a job with `P`, and `I` holds again after the body when the job
has `Q`. If all jobs of the loop have `Q`, they all have `P`, and `I` holds after
the loop. -/
theorem whileLoop_invariant {σ : Type} (dev : MSU σ) (cfg : Config)
    (I : RunState σ → Prop) (P Q : Job → Prop)
    (hbody : ∀ test iter st, iter < cfg.t_final → I st →
      P (loopBody dev cfg test iter st).1 ∧
        (Q (loopBody dev cfg test iter st).1 → I (loopBody dev cfg test iter st).2.2))
    (test fuel iter : Nat) (st : RunState σ) (hst : I st)
    (hQ : ∀ j ∈ (whileLoop dev cfg test fuel iter st).2, Q j) :
    (∀ j ∈ (whileLoop dev cfg test fuel iter st).2, P j) ∧
    (∀ st', (whileLoop dev cfg test fuel iter st).1 = .done st' → I st') := by
  induction fuel generalizing iter st with
  | zero =>
    by_cases h : iter < cfg.t_final
    · simp [whileLoop_zero, h]
    · simp only [whileLoop_exit dev cfg test 0 iter st h]
      refine ⟨by simp, ?_⟩
      intro st' hd
      injection hd with hd
      exact hd ▸ hst
  | succ fuel ih =>
    by_cases h : iter < cfg.t_final
    · rw [whileLoop_step dev cfg test fuel iter st h] at hQ ⊢
      obtain ⟨hP, hI⟩ := hbody test iter st h hst
      split at hQ
      · rename_i hf
        rw [if_pos hf]
        refine ⟨by simpa using hP, ?_⟩
        intro st' hd
        cases hd
      · rename_i hf
        rw [if_neg hf]
        have hQ0 := hQ _ (List.mem_cons_self _ _)
        obtain ⟨ih1, ih2⟩ := ih _ _ (hI hQ0) (fun j hj => hQ j (List.mem_cons_of_mem _ hj))
        refine ⟨?_, ih2⟩
        intro j hj
        rcases List.mem_cons.mp hj with rfl | hj
        · exact hP
        · exact ih1 j hj
    · simp only [whileLoop_exit dev cfg test _ iter st h]
      refine ⟨by simp, ?_⟩
      intro st' hd
      injection hd with hd
      exact hd ▸ hst

theorem forLoop_invariant {σ : Type} (dev : MSU σ) (cfg : Config)
    (I : RunState σ → Prop) (P Q : Job → Prop)
    (hbody : ∀ test iter st, iter < cfg.t_final → I st →
      P (loopBody dev cfg test iter st).1 ∧
        (Q (loopBody dev cfg test iter st).1 → I (loopBody dev cfg test iter st).2.2))
    (fuel n test : Nat) (st : RunState σ) (hst : I st)
    (hQ : ∀ j ∈ (forLoop dev cfg fuel n test st).2, Q j) :
    ∀ j ∈ (forLoop dev cfg fuel n test st).2, P j := by
  induction n generalizing test st with
  | zero => simp [forLoop]
  | succ n ih =>
    rw [forLoop_succ] at hQ ⊢
    have hw := whileLoop_invariant dev cfg I P Q hbody test fuel 0 st hst
    unfold testIteration at hQ ⊢
    rcases hr : whileLoop dev cfg test fuel 0 st with ⟨r, tr⟩
    rw [hr] at hw hQ
    cases r with
    | done st' =>
      simp only at hQ ⊢
      obtain ⟨h1, h2⟩ := hw (fun j hj => hQ j (List.mem_append_left _ hj))
      intro j hj
      rcases List.mem_append.mp hj with hj | hj
      · exact h1 j hj
      · exact ih _ _ (h2 st' rfl) (fun j hj => hQ j (List.mem_append_right _ hj)) j hj
    | ret code => exact (hw hQ).1
    | timeout => exact (hw hQ).1

theorem main_invariant {σ : Type} (dev : MSU σ) (cfg : Config)
    (I : RunState σ → Prop) (P Q : Job → Prop)
    (hbody : ∀ test iter st, iter < (setInterval cfg).t_final → I st →
      P (loopBody dev (setInterval cfg) test iter st).1 ∧
        (Q (loopBody dev (setInterval cfg) test iter st).1 →
          I (loopBody dev (setInterval cfg) test iter st).2.2))
    (s0 : σ) (fuel : Nat) (hst : I { sq_in := cfg.sq_in, failures := 0, msu := s0 })
    (hQ : ∀ j ∈ (main dev cfg s0 fuel).2, Q j) :
    ∀ j ∈ (main dev cfg s0 fuel).2, P j :=
  forLoop_invariant dev (setInterval cfg) I P Q hbody fuel _ 0 _ hst hQ

theorem setInterval_of_pos (cfg : Config) (hc : 1 ≤ cfg.intermediate_iters) :
    setInterval cfg = cfg := by
  unfold setInterval
  have : cfg.intermediate_iters ≠ 0 := by omega
  simp [this]

theorem runTFinal_bounds (t c iter : Nat) (hc : 1 ≤ c) (h : iter < t) :
    1 ≤ runTFinal t c iter ∧ runTFinal t c iter ≤ c := by
  unfold runTFinal
  split
  · have := Nat.mod_le (c + iter) U64
    omega
  · omega

/-! ## Claims about every job of a run -/

/-- C6: with a configured checkpoint interval `c ≥ 1`, every job `main` dispatches,
whatever the device does and however long the run, has an iteration count
`run_t_final` with `1 ≤ run_t_final ≤ c`. -/
theorem job_count_within_interval {σ : Type} (dev : MSU σ) (cfg : Config) (s0 : σ)
    (fuel : Nat) (hc : 1 ≤ cfg.intermediate_iters) :
    ∀ j ∈ (main dev cfg s0 fuel).2,
      1 ≤ j.run_t_final ∧ j.run_t_final ≤ cfg.intermediate_iters := by
  refine main_invariant dev cfg (fun _ => True)
    (fun j => 1 ≤ j.run_t_final ∧ j.run_t_final ≤ cfg.intermediate_iters) (fun _ => True)
    ?_ s0 fuel trivial (fun _ _ => trivial)
  intro test iter st hlt _
  rw [setInterval_of_pos cfg hc] at hlt ⊢
  exact ⟨runTFinal_bounds _ _ _ hc hlt, fun _ => trivial⟩

/-! ## The failure count -/

theorem wrapInt32_of_count (r : Int) (h0 : 0 ≤ r) (h1 : r < 2 ^ 31) :
    wrapInt32 (0 + r) = r := by
  unfold wrapInt32
  omega

theorem loopBody_failures {σ : Type} (dev : MSU σ) (cfg : Config) (test iter : Nat)
    (st : RunState σ) (hst : st.failures = 0)
    (h0 : 0 ≤ (loopBody dev cfg test iter st).1.failures)
    (h1 : (loopBody dev cfg test iter st).1.failures < 2 ^ 31) :
    (loopBody dev cfg test iter st).2.2.failures =
      (loopBody dev cfg test iter st).1.failures := by
  simp only [loopBody, hst] at h0 h1 ⊢
  exact wrapInt32_of_count _ h0 h1

theorem counts_tail {j : Job} {tr : List Job} (h : Counts (j :: tr)) : Counts tr :=
  fun x hx => h x (List.mem_cons_of_mem _ hx)

theorem counts_of_clean {tr : List Job} (h : Clean tr) : Counts tr := by
  intro j hj
  rw [h j hj]
  omega

theorem clean_cons {j : Job} {tr : List Job} (hj : j.failures = 0) (h : Clean tr) :
    Clean (j :: tr) := by
  intro x hx
  rcases List.mem_cons.mp hx with rfl | hx
  · exact hj
  · exact h x hx

theorem clean_append {a b : List Job} (ha : Clean a) (hb : Clean b) : Clean (a ++ b) := by
  intro x hx
  rcases List.mem_append.mp hx with hx | hx
  · exact ha x hx
  · exact hb x hx

theorem clean_sum {tr : List Job} (h : Clean tr) : (tr.map Job.failures).sum = 0 := by
  induction tr with
  | nil => rfl
  | cons j tr ih =>
    have hj := h j (List.mem_cons_self _ _)
    have := ih (fun x hx => h x (List.mem_cons_of_mem _ hx))
    simp [hj, this]

theorem clean_nil : Clean [] := fun _ hj => by cases hj

theorem outcome_done {σ : Type} (st : RunState σ) (tr : List Job) :
    Outcome (Flow.done st, tr) ↔ Clean tr ∧ st.failures = 0 := Iff.rfl

theorem outcome_ret {σ : Type} (code : Int) (tr : List Job) :
    Outcome ((Flow.ret code : Flow σ), tr) ↔
      ∃ init j, tr = init ++ [j] ∧ Clean init ∧ j.failures = code ∧ 0 < code := Iff.rfl

theorem outcome_timeout {σ : Type} (tr : List Job) :
    Outcome ((Flow.timeout : Flow σ), tr) ↔ Clean tr := Iff.rfl

theorem outcome_cons {σ : Type} (j : Job) (hj : j.failures = 0) (r : Flow σ × List Job)
    (h : Outcome r) : Outcome (r.1, j :: r.2) := by
  rcases r with ⟨fl, tr⟩
  cases fl with
  | done st' =>
    rw [outcome_done] at h ⊢
    exact ⟨clean_cons hj h.1, h.2⟩
  | ret code =>
    rw [outcome_ret] at h ⊢
    obtain ⟨init, x, htr, hc, hjc, hpos⟩ := h
    exact ⟨j :: init, x, by rw [htr, List.cons_append], clean_cons hj hc, hjc, hpos⟩
  | timeout =>
    rw [outcome_timeout] at h ⊢
    exact clean_cons hj h

theorem outcome_append {σ : Type} (tr : List Job) (htr : Clean tr) (r : Flow σ × List Job)
    (h : Outcome r) : Outcome (r.1, tr ++ r.2) := by
  rcases r with ⟨fl, tr'⟩
  cases fl with
  | done st' =>
    rw [outcome_done] at h ⊢
    exact ⟨clean_append htr h.1, h.2⟩
  | ret code =>
    rw [outcome_ret] at h ⊢
    obtain ⟨init, x, hx, hc, hjc, hpos⟩ := h
    exact ⟨tr ++ init, x, by rw [hx, List.append_assoc], clean_append htr hc, hjc, hpos⟩
  | timeout =>
    rw [outcome_timeout] at h ⊢
    exact clean_append htr h

theorem whileLoop_outcome {σ : Type} (dev : MSU σ) (cfg : Config) (test fuel iter : Nat)
    (st : RunState σ) (hst : st.failures = 0)
    (hcount : Counts (whileLoop dev cfg test fuel iter st).2) :
    Outcome (whileLoop dev cfg test fuel iter st) := by
  induction fuel generalizing iter st with
  | zero =>
    by_cases h : iter < cfg.t_final
    · rw [whileLoop_zero dev cfg test iter st h, outcome_timeout]
      exact clean_nil
    · rw [whileLoop_exit dev cfg test 0 iter st h, outcome_done]
      exact ⟨clean_nil, hst⟩
  | succ fuel ih =>
    by_cases h : iter < cfg.t_final
    · rw [whileLoop_step dev cfg test fuel iter st h] at hcount ⊢
      split at hcount
      · rename_i hpos
        obtain ⟨h0, h1⟩ := hcount _ (List.mem_cons_self _ _)
        have hf := loopBody_failures dev cfg test iter st hst h0 h1
        rw [if_pos hpos, outcome_ret]
        exact ⟨[], _, rfl, clean_nil, hf.symm, hpos⟩
      · rename_i hpos
        obtain ⟨h0, h1⟩ := hcount _ (List.mem_cons_self _ _)
        have hf := loopBody_failures dev cfg test iter st hst h0 h1
        have hz : (loopBody dev cfg test iter st).2.2.failures = 0 := by omega
        have hj0 : (loopBody dev cfg test iter st).1.failures = 0 := by omega
        rw [if_neg hpos]
        exact outcome_cons _ hj0 _ (ih _ _ hz (counts_tail hcount))
    · rw [whileLoop_exit dev cfg test _ iter st h, outcome_done]
      exact ⟨clean_nil, hst⟩

theorem forLoop_outcome {σ : Type} (dev : MSU σ) (cfg : Config) (fuel n test : Nat)
    (st : RunState σ) (hst : st.failures = 0)
    (hcount : Counts (forLoop dev cfg fuel n test st).2) :
    Outcome (forLoop dev cfg fuel n test st) := by
  induction n generalizing test st with
  | zero =>
    rw [forLoop, outcome_done]
    exact ⟨clean_nil, hst⟩
  | succ n ih =>
    rw [forLoop_succ] at hcount ⊢
    have hw := whileLoop_outcome dev cfg test fuel 0 st hst
    unfold testIteration at hcount ⊢
    revert hw hcount
    generalize whileLoop dev cfg test fuel 0 st = r
    rcases r with ⟨fl, tr⟩
    cases fl with
    | done st' =>
      intro hcount hw
      simp only at hcount hw
      have hw' := hw (fun j hj => hcount j (List.mem_append_left _ hj))
      rw [outcome_done] at hw'
      exact outcome_append tr hw'.1 _
        (ih (test + 1) st' hw'.2 (fun j hj => hcount j (List.mem_append_right _ hj)))
    | ret code => exact fun hcount hw => hw hcount
    | timeout => exact fun hcount hw => hw hcount

theorem last_failure_unique (pre post init : List Job) (j j' : Job)
    (h : pre ++ j :: post = init ++ [j']) (hinit : Clean init) (hj : j.failures ≠ 0) :
    post = [] ∧ j = j' := by
  rcases List.eq_nil_or_concat post with rfl | ⟨post', x, rfl⟩
  · have := List.append_inj' h rfl
    exact ⟨rfl, by simpa using this.2⟩
  · exfalso
    have h' : (pre ++ j :: post') ++ [x] = init ++ [j'] := by simpa using h
    have := List.append_inj' h' rfl
    have hmem : j ∈ init := by rw [← this.1]; simp
    exact hj (hinit j hmem)

theorem main_outcome {σ : Type} (dev : MSU σ) (cfg : Config) (s0 : σ) (fuel : Nat)
    (hcount : Counts (main dev cfg s0 fuel).2) :
    ∃ r : Flow σ × List Job, Outcome r ∧ main dev cfg s0 fuel = (r.1.code, r.2) :=
  ⟨_, forLoop_outcome dev (setInterval cfg) fuel cfg.test_iterations.toNat 0
    { sq_in := cfg.sq_in, failures := 0, msu := s0 } rfl hcount, rfl⟩

/-- C1: in a run whose jobs return failure counts (an `int` that is not negative),
a job that returns a non-zero count is the last job `main` dispatches, in this
sequence of checkpoints and over all test iterations, and `main` returns that
count. -/
theorem failure_short_circuit {σ : Type} (dev : MSU σ) (cfg : Config) (s0 : σ)
    (fuel : Nat) (hcount : Counts (main dev cfg s0 fuel).2) (pre post : List Job) (j : Job)
    (htr : (main dev cfg s0 fuel).2 = pre ++ j :: post) (hj : j.failures ≠ 0) :
    post = [] ∧ (main dev cfg s0 fuel).1 = some j.failures := by
  obtain ⟨⟨fl, tr⟩, ho, hm⟩ := main_outcome dev cfg s0 fuel hcount
  rw [hm] at htr ⊢
  simp only at htr ⊢
  have hmem : j ∈ tr := by rw [htr]; simp
  cases fl with
  | done st =>
    rw [outcome_done] at ho
    exact absurd (ho.1 j hmem) hj
  | ret code =>
    rw [outcome_ret] at ho
    obtain ⟨init, j', hi, hc, hjc, _⟩ := ho
    obtain ⟨hp, hjj⟩ := last_failure_unique pre post init j j' (htr ▸ hi) hc hj
    exact ⟨hp, by simp [Flow.code, hjj, hjc]⟩
  | timeout =>
    rw [outcome_timeout] at ho
    exact absurd (ho j hmem) hj

/-! ## The checkpoint schedule when the counter does not wrap -/

theorem lt_ceilDiv_iff (t c k : Nat) (hc : 1 ≤ c) : k < ceilDiv t c ↔ k * c < t := by
  unfold ceilDiv
  rw [Nat.lt_iff_add_one_le, Nat.le_div_iff_mul_le (by omega), Nat.add_mul]
  omega

theorem next_lt_U64 (cfg : Config) (hc : 1 ≤ cfg.intermediate_iters) (hnw : NoWrap cfg)
    (k : Nat) (h : k * cfg.intermediate_iters < cfg.t_final) :
    (k + 1) * cfg.intermediate_iters < U64 := by
  have hk : k + 1 ≤ ceilDiv cfg.t_final cfg.intermediate_iters :=
    (lt_ceilDiv_iff _ _ _ hc).mpr h
  have := Nat.mul_le_mul_right cfg.intermediate_iters hk
  unfold NoWrap at hnw
  rw [Nat.mul_comm] at hnw
  omega

theorem planFrom_cons (t c k : Nat) (hc : 1 ≤ c) (h : k * c < t) :
    planFrom t c k = planned t c k :: planFrom t c (k + 1) := by
  have hk := (lt_ceilDiv_iff t c k hc).mpr h
  unfold planFrom
  have : ceilDiv t c - k = (ceilDiv t c - (k + 1)) + 1 := by omega
  rw [this, List.range'_succ, List.map_cons]

theorem planFrom_nil (t c k : Nat) (hc : 1 ≤ c) (h : ¬ k * c < t) : planFrom t c k = [] := by
  have hk : ¬ k < ceilDiv t c := fun hk => h ((lt_ceilDiv_iff t c k hc).mp hk)
  unfold planFrom
  have : ceilDiv t c - k = 0 := by omega
  rw [this]
  rfl

theorem loopBody_params {σ : Type} (dev : MSU σ) (cfg : Config)
    (hc : 1 ≤ cfg.intermediate_iters) (hnw : NoWrap cfg) (test k : Nat) (st : RunState σ)
    (h : k * cfg.intermediate_iters < cfg.t_final) :
    (loopBody dev cfg test (k * cfg.intermediate_iters) st).1.params =
        planned cfg.t_final cfg.intermediate_iters k ∧
      (loopBody dev cfg test (k * cfg.intermediate_iters) st).2.1 =
        (k + 1) * cfg.intermediate_iters := by
  have hlt := next_lt_U64 cfg hc hnw k h
  have e1 : (k * cfg.intermediate_iters + cfg.intermediate_iters) % U64 =
      (k + 1) * cfg.intermediate_iters := by
    rw [← Nat.succ_mul]
    exact Nat.mod_eq_of_lt hlt
  have e2 : (cfg.intermediate_iters + k * cfg.intermediate_iters) % U64 =
      (k + 1) * cfg.intermediate_iters := by
    rw [Nat.add_comm]
    exact e1
  have e3 : runTFinal cfg.t_final cfg.intermediate_iters (k * cfg.intermediate_iters) =
      min cfg.intermediate_iters (cfg.t_final - k * cfg.intermediate_iters) := by
    unfold runTFinal
    rw [e2, Nat.succ_mul]
    split <;> omega
  simp only [loopBody, Job.params, planned, e1, e3, and_self]

theorem whileLoop_plan {σ : Type} (dev : MSU σ) (cfg : Config)
    (hc : 1 ≤ cfg.intermediate_iters) (hnw : NoWrap cfg) (test fuel k : Nat)
    (st : RunState σ)
    (hfuel : ceilDiv cfg.t_final cfg.intermediate_iters - k ≤ fuel) :
    (whileLoop dev cfg test fuel (k * cfg.intermediate_iters) st).1.code ≠ none ∧
    ((whileLoop dev cfg test fuel (k * cfg.intermediate_iters) st).2.map Job.params <+:
      planFrom cfg.t_final cfg.intermediate_iters k) ∧
    (∀ st', (whileLoop dev cfg test fuel (k * cfg.intermediate_iters) st).1 = .done st' →
      (whileLoop dev cfg test fuel (k * cfg.intermediate_iters) st).2.map Job.params =
        planFrom cfg.t_final cfg.intermediate_iters k) := by
  induction fuel generalizing k st with
  | zero =>
    have hk : ¬ k * cfg.intermediate_iters < cfg.t_final := by
      intro h
      have := (lt_ceilDiv_iff _ _ _ hc).mpr h
      omega
    rw [whileLoop_exit dev cfg test 0 _ st hk, planFrom_nil _ _ _ hc hk]
    simp [Flow.code]
  | succ fuel ih =>
    by_cases h : k * cfg.intermediate_iters < cfg.t_final
    · rw [whileLoop_step dev cfg test fuel _ st h, planFrom_cons _ _ _ hc h]
      obtain ⟨hp, hi⟩ := loopBody_params dev cfg hc hnw test k st h
      split
      · simp [Flow.code, hp]
      · rw [hi]
        obtain ⟨h1, h2, h3⟩ := ih (k + 1) (loopBody dev cfg test _ st).2.2 (by omega)
        refine ⟨h1, ?_, ?_⟩
        · rw [List.map_cons, hp]
          exact (List.prefix_cons_inj _).mpr h2
        · intro st' hd
          rw [List.map_cons, hp, h3 st' hd]
    · rw [whileLoop_exit dev cfg test _ _ st h, planFrom_nil _ _ _ hc h]
      simp [Flow.code]

theorem planFrom_zero (t c : Nat) :
    planFrom t c 0 = (List.range (ceilDiv t c)).map (planned t c) := by
  unfold planFrom
  rw [Nat.sub_zero, List.range_eq_range']

theorem setInterval_pos_or (cfg : Config) :
    1 ≤ (setInterval cfg).intermediate_iters ∨ (setInterval cfg).t_final = 0 := by
  simp only [setInterval]
  split <;> omega

theorem testIteration_code_ne_none {σ : Type} (dev : MSU σ) (cfg : Config)
    (hc : 1 ≤ cfg.intermediate_iters ∨ cfg.t_final = 0) (hnw : NoWrap cfg)
    (test fuel : Nat) (st : RunState σ)
    (hfuel : ceilDiv cfg.t_final cfg.intermediate_iters ≤ fuel) :
    (testIteration dev cfg test fuel st).1.code ≠ none := by
  unfold testIteration
  rcases hc with hc | ht
  · have := (whileLoop_plan dev cfg hc hnw test fuel 0 st (by omega)).1
    rwa [Nat.zero_mul] at this
  · rw [whileLoop_exit dev cfg test fuel 0 st (by omega)]
    simp [Flow.code]

theorem forLoop_code_ne_none {σ : Type} (dev : MSU σ) (cfg : Config)
    (hc : 1 ≤ cfg.intermediate_iters ∨ cfg.t_final = 0) (hnw : NoWrap cfg)
    (fuel n test : Nat) (st : RunState σ)
    (hfuel : ceilDiv cfg.t_final cfg.intermediate_iters ≤ fuel) :
    (forLoop dev cfg fuel n test st).1.code ≠ none := by
  induction n generalizing test st with
  | zero => simp [forLoop, Flow.code]
  | succ n ih =>
    rw [forLoop_succ]
    have hw := testIteration_code_ne_none dev cfg hc hnw test fuel st hfuel
    revert hw
    generalize testIteration dev cfg test fuel st = r
    rcases r with ⟨fl, tr⟩
    cases fl with
    | done st' => exact fun _ => ih (test + 1) st'
    | ret code => exact fun hw => hw
    | timeout => exact fun hw => hw

/-- C2: in a run whose jobs return failure counts (an `int` that is not negative),
a value returned by `main` is the sum of the counts returned by all the jobs it
dispatched, and it is `0` exactly when every job reported `0`; and `main` does
return, given enough fuel, whenever the counter cannot wrap. -/
theorem exit_code_is_failure_sum {σ : Type} (dev : MSU σ) (cfg : Config) (s0 : σ)
    (fuel : Nat) (hcount : Counts (main dev cfg s0 fuel).2) :
    (∀ code, (main dev cfg s0 fuel).1 = some code →
      code = ((main dev cfg s0 fuel).2.map Job.failures).sum ∧
        (code = 0 ↔ ∀ j ∈ (main dev cfg s0 fuel).2, j.failures = 0)) ∧
    (NoWrap (setInterval cfg) →
      ceilDiv (setInterval cfg).t_final (setInterval cfg).intermediate_iters ≤ fuel →
      (main dev cfg s0 fuel).1 ≠ none) := by
  constructor
  · obtain ⟨⟨fl, tr⟩, ho, hm⟩ := main_outcome dev cfg s0 fuel hcount
    rw [hm]
    intro code hcode
    cases fl with
    | done st =>
      rw [outcome_done] at ho
      simp only [Flow.code, Option.some.injEq] at hcode
      have hz : code = 0 := by rw [← hcode]; exact ho.2
      exact ⟨by rw [hz]; exact (clean_sum ho.1).symm, fun _ => ho.1, fun _ => hz⟩
    | ret c =>
      rw [outcome_ret] at ho
      obtain ⟨init, j, hi, hc, hjc, hpos⟩ := ho
      simp only [Flow.code, Option.some.injEq] at hcode
      subst hcode
      simp only
      subst hi
      refine ⟨by simp [clean_sum hc, hjc], ?_⟩
      constructor
      · intro h0
        omega
      · intro hall
        have := hall j (by simp)
        omega
    | timeout => simp [Flow.code] at hcode
  · intro hnw hfuel
    exact forLoop_code_ne_none dev (setInterval cfg) (setInterval_pos_or cfg) hnw fuel _ 0 _
      hfuel

/-! ## A device that reports no failures -/

theorem loopBody_noFailures {σ : Type} (dev : MSU σ) (hdev : NoFailures dev)
    (cfg : Config) (test iter : Nat) (st : RunState σ) :
    (loopBody dev cfg test iter st).1.failures = 0 := by
  simp only [loopBody]
  split
  · exact hdev.1 _ _ _ _ _
  · exact hdev.2 _ _ _ _ _

theorem whileLoop_noFailures {σ : Type} (dev : MSU σ) (hdev : NoFailures dev)
    (cfg : Config) (test fuel iter : Nat) (st : RunState σ) (hst : st.failures = 0) :
    (∀ code, (whileLoop dev cfg test fuel iter st).1 ≠ .ret code) ∧
    (∀ st', (whileLoop dev cfg test fuel iter st).1 = .done st' → st'.failures = 0) := by
  have hall := (whileLoop_invariant dev cfg (fun _ => True) (fun j => j.failures = 0)
    (fun _ => True) (fun test iter st _ _ =>
      ⟨loopBody_noFailures dev hdev cfg test iter st, fun _ => trivial⟩)
    test fuel iter st trivial (fun _ _ => trivial)).1
  have ho := whileLoop_outcome dev cfg test fuel iter st hst (counts_of_clean hall)
  revert hall ho
  generalize whileLoop dev cfg test fuel iter st = r
  rcases r with ⟨fl, tr⟩
  intro hall ho
  cases fl with
  | done st' =>
    rw [outcome_done] at ho
    refine ⟨fun code h => (by cases h), ?_⟩
    intro st'' h
    injection h with h
    exact h ▸ ho.2
  | ret code =>
    rw [outcome_ret] at ho
    obtain ⟨init, j, hi, _, hjc, hpos⟩ := ho
    have := hall j (by rw [hi]; simp)
    omega
  | timeout =>
    exact ⟨fun code h => (by cases h), fun st' h => (by cases h)⟩

theorem testIteration_plan {σ : Type} (dev : MSU σ) (hdev : NoFailures dev)
    (cfg : Config) (hc : 1 ≤ cfg.intermediate_iters) (hnw : NoWrap cfg)
    (test fuel : Nat) (st : RunState σ) (hst : st.failures = 0)
    (hfuel : ceilDiv cfg.t_final cfg.intermediate_iters ≤ fuel) :
    ∃ st' tr, testIteration dev cfg test fuel st = (.done st', tr) ∧ st'.failures = 0 ∧
      tr.map Job.params =
        (List.range (ceilDiv cfg.t_final cfg.intermediate_iters)).map
          (planned cfg.t_final cfg.intermediate_iters) := by
  unfold testIteration
  have hp := whileLoop_plan dev cfg hc hnw test fuel 0 st (by omega)
  have hq := whileLoop_noFailures dev hdev cfg test fuel 0 st hst
  rw [Nat.zero_mul, planFrom_zero] at hp
  revert hp hq
  generalize whileLoop dev cfg test fuel 0 st = r
  rcases r with ⟨fl, tr⟩
  rintro ⟨h1, _, h3⟩ ⟨h4, h5⟩
  cases fl with
  | done st' => exact ⟨st', tr, rfl, h5 st' rfl, h3 st' rfl⟩
  | ret code => exact absurd rfl (h4 code)
  | timeout => exact absurd rfl h1

theorem sum_planned (t c : Nat) (hc : 1 ≤ c) (m : Nat) (hm : m ≤ ceilDiv t c) :
    ((List.range m).map (fun i => (planned t c i).2.1)).sum = min (m * c) t := by
  induction m with
  | zero => simp
  | succ m ih =>
    have hlt : m * c < t := (lt_ceilDiv_iff t c m hc).mp (by omega)
    rw [List.range_succ, List.map_append, List.sum_append, ih (by omega)]
    simp only [planned, List.map_cons, List.map_nil, List.sum_cons, List.sum_nil,
      Nat.succ_mul]
    omega

theorem le_ceilDiv_mul (t c : Nat) (hc : 1 ≤ c) : t ≤ ceilDiv t c * c := by
  have := (lt_ceilDiv_iff t c (ceilDiv t c) hc).not.mp (lt_irrefl _)
  omega

theorem run_t_final_eq_params (tr : List Job) :
    tr.map Job.run_t_final = (tr.map Job.params).map (fun p => p.2.1) := by
  rw [List.map_map]
  rfl

/-- C5, amended: with a device that reports no failures, and a checkpoint interval
(`0` standing for `t_final`) for which the counter does not wrap, a test iteration
completes and the iteration counts of its jobs sum to exactly `t_final`. -/
theorem iteration_counts_sum_to_target {σ : Type} (dev : MSU σ) (hdev : NoFailures dev)
    (cfg : Config) (hnw : NoWrap (setInterval cfg)) (test fuel : Nat) (st : RunState σ)
    (hst : st.failures = 0)
    (hfuel : ceilDiv (setInterval cfg).t_final (setInterval cfg).intermediate_iters ≤ fuel) :
    ∃ st' tr, testIteration dev (setInterval cfg) test fuel st = (.done st', tr) ∧
      (tr.map Job.run_t_final).sum = cfg.t_final := by
  rcases setInterval_pos_or cfg with hc | ht
  · obtain ⟨st', tr, h1, _, h3⟩ :=
      testIteration_plan dev hdev (setInterval cfg) hc hnw test fuel st hst hfuel
    refine ⟨st', tr, h1, ?_⟩
    rw [run_t_final_eq_params, h3, List.map_map]
    have := sum_planned (setInterval cfg).t_final (setInterval cfg).intermediate_iters hc _
      (le_refl _)
    have hle := le_ceilDiv_mul (setInterval cfg).t_final (setInterval cfg).intermediate_iters hc
    rw [Nat.min_eq_right hle] at this
    exact this
  · refine ⟨st, [], ?_, ?_⟩
    · unfold testIteration
      exact whileLoop_exit dev _ test fuel 0 st (by omega)
    · exact ht.symm

/-- C9, amended: with a device that reports no failures and a checkpoint interval
`c ≥ 1` for which the counter does not wrap, a test iteration completes, and after
its job number `i` (from `0`) the counter `iter` is `(i + 1) * c`, while the
squarings dispatched so far in the test iteration are the smaller of that counter
and `t_final`: the counter is the number of squarings as long as it has not passed
`t_final`. -/
theorem counter_caps_at_target {σ : Type} (dev : MSU σ) (hdev : NoFailures dev)
    (cfg : Config) (hc : 1 ≤ cfg.intermediate_iters) (hnw : NoWrap cfg)
    (test fuel : Nat) (st : RunState σ) (hst : st.failures = 0)
    (hfuel : ceilDiv cfg.t_final cfg.intermediate_iters ≤ fuel) :
    ∃ st' tr, testIteration dev cfg test fuel st = (.done st', tr) ∧
      ∀ i j, tr[i]? = some j →
        j.iter_after = (i + 1) * cfg.intermediate_iters ∧
        ((tr.take (i + 1)).map Job.run_t_final).sum = min j.iter_after cfg.t_final := by
  obtain ⟨st', tr, h1, _, h3⟩ := testIteration_plan dev hdev cfg hc hnw test fuel st hst hfuel
  refine ⟨st', tr, h1, ?_⟩
  intro i j hij
  have hp : ((List.range (ceilDiv cfg.t_final cfg.intermediate_iters)).map
      (planned cfg.t_final cfg.intermediate_iters))[i]? = some j.params := by
    rw [← h3, List.getElem?_map, hij]
    rfl
  rw [List.getElem?_map] at hp
  have hi : i < ceilDiv cfg.t_final cfg.intermediate_iters := by
    by_contra hge
    rw [List.getElem?_eq_none (by simpa using hge)] at hp
    cases hp
  rw [List.getElem?_range hi] at hp
  simp only [Option.map_some', Option.some.injEq] at hp
  have hia : j.iter_after = (i + 1) * cfg.intermediate_iters := by
    have := congrArg (fun p => p.2.2) hp
    exact this.symm
  refine ⟨hia, ?_⟩
  rw [run_t_final_eq_params, List.map_take, h3, ← List.map_take, List.take_range,
    Nat.min_eq_left (by omega), List.map_map, hia]
  exact sum_planned _ _ hc (i + 1) (by omega)

theorem forLoop_noFailures_length {σ : Type} (dev : MSU σ) (hdev : NoFailures dev)
    (cfg : Config) (hc : 1 ≤ cfg.intermediate_iters) (hnw : NoWrap cfg)
    (fuel n test : Nat) (st : RunState σ) (hst : st.failures = 0)
    (hfuel : ceilDiv cfg.t_final cfg.intermediate_iters ≤ fuel) :
    ∃ st' tr, forLoop dev cfg fuel n test st = (.done st', tr) ∧ st'.failures = 0 ∧
      tr.length = n * ceilDiv cfg.t_final cfg.intermediate_iters := by
  induction n generalizing test st with
  | zero => exact ⟨st, [], rfl, hst, by simp⟩
  | succ n ih =>
    obtain ⟨st1, tr1, h1, h2, h3⟩ :=
      testIteration_plan dev hdev cfg hc hnw test fuel st hst hfuel
    obtain ⟨st2, tr2, k1, k2, k3⟩ := ih (test + 1) st1 h2
    refine ⟨st2, tr1 ++ tr2, ?_, k2, ?_⟩
    · rw [forLoop_succ, h1]
      simp only [k1]
    · have hl : tr1.length = ceilDiv cfg.t_final cfg.intermediate_iters := by
        have := congrArg List.length h3
        simpa using this
      rw [List.length_append, hl, k3, Nat.succ_mul, Nat.add_comm]

/-- C10, amended: with a device that reports no failures and a checkpoint
interval `c ≥ 1` for which the counter does not wrap, `main` terminates, returns `0`
and has dispatched exactly `test_iterations * ceil(t_final / c)` jobs (no job when
`test_iterations` is negative). -/
theorem job_count_without_wrap {σ : Type} (dev : MSU σ) (hdev : NoFailures dev)
    (cfg : Config) (hc : 1 ≤ cfg.intermediate_iters) (hnw : NoWrap cfg) (s0 : σ)
    (fuel : Nat) (hfuel : ceilDiv cfg.t_final cfg.intermediate_iters ≤ fuel) :
    (main dev cfg s0 fuel).1 = some 0 ∧
      (main dev cfg s0 fuel).2.length =
        cfg.test_iterations.toNat * ceilDiv cfg.t_final cfg.intermediate_iters := by
  obtain ⟨st', tr, h1, h2, h3⟩ := forLoop_noFailures_length dev hdev cfg hc hnw fuel
    cfg.test_iterations.toNat 0 { sq_in := cfg.sq_in, failures := 0, msu := s0 } rfl hfuel
  unfold main
  rw [setInterval_of_pos cfg hc, h1]
  exact ⟨by simp [Flow.code, h2], h3⟩

/-! ## The default interval -/

/-- C7: with the checkpoint interval unset (`intermediate_iters = 0`) and
`1 ≤ t_final`, every test iteration, whatever the device does, ends having
dispatched exactly one job, whose iteration count is `t_final`. -/
theorem default_interval_single_job {σ : Type} (dev : MSU σ) (cfg : Config)
    (hunset : cfg.intermediate_iters = 0) (ht : 1 ≤ cfg.t_final) (ht64 : cfg.t_final < U64)
    (test fuel : Nat) (hfuel : 1 ≤ fuel) (st : RunState σ) :
    (testIteration dev (setInterval cfg) test fuel st).1.code ≠ none ∧
      ∃ j, (testIteration dev (setInterval cfg) test fuel st).2 = [j] ∧
        j.run_t_final = cfg.t_final := by
  obtain ⟨f, rfl⟩ : ∃ f, fuel = f + 1 := ⟨fuel - 1, by omega⟩
  have hc : (setInterval cfg).intermediate_iters = cfg.t_final := by
    simp [setInterval, hunset]
  have htf : (setInterval cfg).t_final = cfg.t_final := rfl
  have hlt : 0 < (setInterval cfg).t_final := ht
  have hrun : (loopBody dev (setInterval cfg) test 0 st).1.run_t_final = cfg.t_final := by
    simp only [loopBody, runTFinal, hc, htf, Nat.add_zero, Nat.mod_eq_of_lt ht64]
    simp
  have hiter : (loopBody dev (setInterval cfg) test 0 st).2.1 = cfg.t_final := by
    simp only [loopBody, hc, Nat.zero_add, Nat.mod_eq_of_lt ht64]
  unfold testIteration
  rw [whileLoop_step dev (setInterval cfg) test f 0 st hlt]
  split
  · exact ⟨by simp [Flow.code], _, rfl, hrun⟩
  · rw [hiter, whileLoop_exit dev (setInterval cfg) test f cfg.t_final _ (by rw [htf]; omega)]
    exact ⟨by simp [Flow.code], _, rfl, hrun⟩

/-! ## The value rolled forward -/

theorem dropLast_glue (s : Int) (R R' : List Int) :
    (s :: R).dropLast ++ (lastFrom s R :: R').dropLast = (s :: (R ++ R')).dropLast := by
  induction R generalizing s with
  | nil => simp [lastFrom]
  | cons a R ih =>
    have := ih a
    simp only [List.dropLast_cons₂, lastFrom, List.cons_append] at this ⊢
    rw [this]

theorem whileLoop_sq_in {σ : Type} (dev : MSU σ) (cfg : Config) (test fuel iter : Nat)
    (st : RunState σ) :
    (whileLoop dev cfg test fuel iter st).2.map Job.sq_in =
        (st.sq_in :: (whileLoop dev cfg test fuel iter st).2.map Job.reduced_out).dropLast ∧
    (∀ st', (whileLoop dev cfg test fuel iter st).1 = .done st' →
      st'.sq_in = lastFrom st.sq_in
        ((whileLoop dev cfg test fuel iter st).2.map Job.reduced_out)) := by
  induction fuel generalizing iter st with
  | zero =>
    by_cases h : iter < cfg.t_final
    · rw [whileLoop_zero dev cfg test iter st h]
      exact ⟨rfl, fun st' hd => (by cases hd)⟩
    · rw [whileLoop_exit dev cfg test 0 iter st h]
      refine ⟨rfl, ?_⟩
      intro st' hd
      injection hd with hd
      rw [← hd]
      rfl
  | succ fuel ih =>
    by_cases h : iter < cfg.t_final
    · rw [whileLoop_step dev cfg test fuel iter st h]
      split
      · exact ⟨rfl, fun st' hd => (by cases hd)⟩
      · obtain ⟨h1, h2⟩ := ih (loopBody dev cfg test iter st).2.1
          (loopBody dev cfg test iter st).2.2
        constructor
        · simp only [List.map_cons, List.dropLast_cons₂]
          rw [h1]
          rfl
        · intro st' hd
          rw [h2 st' hd]
          rfl
    · rw [whileLoop_exit dev cfg test _ iter st h]
      refine ⟨rfl, ?_⟩
      intro st' hd
      injection hd with hd
      rw [← hd]
      rfl

theorem forLoop_sq_in {σ : Type} (dev : MSU σ) (cfg : Config) (fuel n test : Nat)
    (st : RunState σ) :
    (forLoop dev cfg fuel n test st).2.map Job.sq_in =
        (st.sq_in :: (forLoop dev cfg fuel n test st).2.map Job.reduced_out).dropLast := by
  induction n generalizing test st with
  | zero => rfl
  | succ n ih =>
    rw [forLoop_succ]
    have hw := whileLoop_sq_in dev cfg test fuel 0 st
    unfold testIteration
    revert hw
    generalize whileLoop dev cfg test fuel 0 st = r
    rcases r with ⟨fl, tr⟩
    cases fl with
    | done st' =>
      rintro ⟨h1, h2⟩
      simp only at h1 h2 ⊢
      rw [List.map_append, List.map_append, h1, ih (test + 1) st', h2 st' rfl, dropLast_glue]
    | ret code => exact fun hw => hw.1
    | timeout => exact fun hw => hw.1

/-- C8, amended: only the first job of a run is dispatched with the starting value
`s`. Every later job, the first job of a later test iteration included, is
dispatched with `sq_in` equal to what the job before it left in `reduced_out`:
the operands are `s` followed by the results, the last result left out. -/
theorem start_value_rolls_forward {σ : Type} (dev : MSU σ) (cfg : Config) (s0 : σ)
    (fuel : Nat) :
    (main dev cfg s0 fuel).2.map Job.sq_in =
      (cfg.sq_in :: (main dev cfg s0 fuel).2.map Job.reduced_out).dropLast :=
  forLoop_sq_in dev (setInterval cfg) fuel cfg.test_iterations.toNat 0
    { sq_in := cfg.sq_in, failures := 0, msu := s0 }

theorem operand_after_prefix (f g : Job → Int) (s : Int) (pre post : List Job) (j : Job)
    (h : (pre ++ j :: post).map f = (s :: (pre ++ j :: post).map g).dropLast) :
    f j = lastFrom s (pre.map g) := by
  induction pre generalizing s with
  | nil =>
    simp only [List.nil_append, List.map_cons, List.dropLast_cons₂, List.cons.injEq] at h
    exact h.1
  | cons a pre ih =>
    simp only [List.cons_append, List.map_cons, List.dropLast_cons₂, List.cons.injEq] at h
    have := ih (g a) (by simpa only [List.map_cons] using h.2)
    simpa only [List.map_cons, lastFrom] using this

theorem lastFrom_ne_zero (s : Int) (R : List Int) (hs : s ≠ 0) (hR : ∀ x ∈ R, x ≠ 0) :
    lastFrom s R ≠ 0 := by
  induction R generalizing s with
  | nil => exact hs
  | cons a R ih =>
    exact ih a (hR a (List.mem_cons_self _ _)) (fun x hx => hR x (List.mem_cons_of_mem _ hx))

theorem main_fixed_iff {σ : Type} (dev : MSU σ) (cfg : Config) (s0 : σ) (fuel : Nat) :
    ∀ j ∈ (main dev cfg s0 fuel).2, j.fixed = decide (j.sq_in ≠ 0) :=
  main_invariant dev cfg (fun _ => True) (fun j => j.fixed = decide (j.sq_in ≠ 0))
    (fun _ => True) (fun _ _ _ _ _ => ⟨rfl, fun _ => trivial⟩) s0 fuel trivial
    (fun _ _ => trivial)

/-- C4, amended: in a run started with a non-zero starting value, as long as no
job has left `0` in `reduced_out`, every job is dispatched through `run_fixed`: a
job all of whose predecessors in the run left a non-zero `reduced_out` is a
`run_fixed` job, whatever that job itself and the jobs after it leave. -/
theorem fixed_until_zero_left {σ : Type} (dev : MSU σ) (cfg : Config) (s0 : σ)
    (fuel : Nat) (hs : cfg.sq_in ≠ 0) (pre post : List Job) (j : Job)
    (htr : (main dev cfg s0 fuel).2 = pre ++ j :: post)
    (hpre : ∀ x ∈ pre, x.reduced_out ≠ 0) :
    j.fixed = true := by
  have hroll := forLoop_sq_in dev (setInterval cfg) fuel cfg.test_iterations.toNat 0
    { sq_in := cfg.sq_in, failures := 0, msu := s0 }
  have hroll' : (main dev cfg s0 fuel).2.map Job.sq_in =
      (cfg.sq_in :: (main dev cfg s0 fuel).2.map Job.reduced_out).dropLast := hroll
  rw [htr] at hroll'
  have hop := operand_after_prefix Job.sq_in Job.reduced_out cfg.sq_in pre post j hroll'
  have hne : j.sq_in ≠ 0 := by
    rw [hop]
    refine lastFrom_ne_zero _ _ hs ?_
    intro x hx
    obtain ⟨y, hy, rfl⟩ := List.mem_map.mp hx
    exact hpre y hy
  have hfix := main_fixed_iff dev cfg s0 fuel j (by rw [htr]; simp)
  rw [hfix]
  exact decide_eq_true hne

/-! ## Chaining of checkpoints -/

theorem sq_chain (y N : Int) (a b : Nat) :
    (y ^ (2 ^ a) % N) ^ (2 ^ b) % N = y ^ (2 ^ (a + b)) % N := by
  have h : (y ^ (2 ^ a) % N) ^ (2 ^ b) ≡ (y ^ (2 ^ a)) ^ (2 ^ b) [ZMOD N] :=
    (Int.mod_modEq _ _).pow _
  unfold Int.ModEq at h
  rw [h, ← pow_mul, ← pow_add]

theorem loopBody_fixed {σ : Type} (dev : MSU σ) (N : Int) (hdev : SquaresExactly dev N)
    (cfg : Config) (test iter : Nat) (st : RunState σ) (hst : st.failures = 0)
    (hy : st.sq_in ≠ 0) :
    (loopBody dev cfg test iter st).2.2.sq_in =
        st.sq_in ^ (2 ^ (loopBody dev cfg test iter st).1.run_t_final) % N ∧
      (loopBody dev cfg test iter st).2.2.failures = 0 := by
  simp only [loopBody, hst, if_pos hy]
  obtain ⟨h0, h1⟩ := hdev st.msu 0
    (runTFinal cfg.t_final cfg.intermediate_iters iter) st.sq_in cfg.hw_emu
  rw [h0, h1]
  exact ⟨rfl, by decide⟩

theorem whileLoop_chain {σ : Type} (dev : MSU σ) (N : Int) (hdev : SquaresExactly dev N)
    (cfg : Config) (hc : 1 ≤ cfg.intermediate_iters) (hnw : NoWrap cfg)
    (test fuel k : Nat) (st : RunState σ) (hst : st.failures = 0)
    (hk : k * cfg.intermediate_iters < cfg.t_final) (hy : st.sq_in ≠ 0)
    (hchain : ∀ m, 0 < m → k * cfg.intermediate_iters + m < cfg.t_final →
      st.sq_in ^ (2 ^ m) % N ≠ 0)
    (hfuel : ceilDiv cfg.t_final cfg.intermediate_iters - k ≤ fuel) :
    ∃ st' tr, whileLoop dev cfg test fuel (k * cfg.intermediate_iters) st = (.done st', tr) ∧
      st'.sq_in = st.sq_in ^ (2 ^ (cfg.t_final - k * cfg.intermediate_iters)) % N := by
  induction fuel generalizing k st with
  | zero =>
    have := (lt_ceilDiv_iff _ _ _ hc).mpr hk
    omega
  | succ fuel ih =>
    rw [whileLoop_step dev cfg test fuel _ st hk]
    obtain ⟨hp, hi⟩ := loopBody_params dev cfg hc hnw test k st hk
    obtain ⟨hsq, hf⟩ := loopBody_fixed dev N hdev cfg test (k * cfg.intermediate_iters) st hst hy
    have hrun : (loopBody dev cfg test (k * cfg.intermediate_iters) st).1.run_t_final =
        min cfg.intermediate_iters (cfg.t_final - k * cfg.intermediate_iters) := by
      have := congrArg (fun p => p.2.1) hp
      exact this
    rw [hrun] at hsq
    rw [if_neg (by omega), hi]
    by_cases hnext : (k + 1) * cfg.intermediate_iters < cfg.t_final
    · have hk1 : k * cfg.intermediate_iters + cfg.intermediate_iters < cfg.t_final := by
        rw [← Nat.succ_mul]
        exact hnext
      have hmin : min cfg.intermediate_iters (cfg.t_final - k * cfg.intermediate_iters) =
          cfg.intermediate_iters := by omega
      rw [hmin] at hsq
      obtain ⟨st', tr, h1, h2⟩ := ih (k + 1)
        (loopBody dev cfg test (k * cfg.intermediate_iters) st).2.2 hf hnext
        (by rw [hsq]; exact hchain _ (by omega) hk1)
        (by
          intro m hm hlt
          rw [hsq, sq_chain]
          refine hchain _ (by omega) ?_
          rw [Nat.succ_mul] at hlt
          omega)
        (by omega)
      refine ⟨st', _ :: tr, by rw [h1], ?_⟩
      rw [h2, hsq, sq_chain]
      congr 3
      rw [Nat.succ_mul]
      omega
    · rw [whileLoop_exit dev cfg test fuel _ _ hnext]
      refine ⟨_, _, rfl, ?_⟩
      rw [hsq]
      congr 3
      rw [Nat.succ_mul] at hnext
      omega

/-- C3, amended: on a device that squares exactly modulo `N`, for a start value
`x ≠ 0` whose squaring chain does not reach `0` before `t_final` squarings, and
every checkpoint interval `c ≥ 1` for which the counter does not wrap, a test
iteration completes with the value `x ^ (2 ^ t_final) % N`, the same for every such
`c`. -/
theorem chaining_when_chain_nonzero {σ : Type} (dev : MSU σ) (N x : Int)
    (hdev : SquaresExactly dev N) (cfg : Config) (hc : 1 ≤ cfg.intermediate_iters)
    (hnw : NoWrap cfg) (ht : 1 ≤ cfg.t_final) (hx : x ≠ 0)
    (hchain : ∀ m, 0 < m → m < cfg.t_final → x ^ (2 ^ m) % N ≠ 0)
    (test fuel : Nat) (hfuel : ceilDiv cfg.t_final cfg.intermediate_iters ≤ fuel) (s : σ) :
    ∃ st' tr, testIteration dev cfg test fuel { sq_in := x, failures := 0, msu := s } =
        (.done st', tr) ∧
      st'.sq_in = x ^ (2 ^ cfg.t_final) % N := by
  have := whileLoop_chain dev N hdev cfg hc hnw test fuel 0
    { sq_in := x, failures := 0, msu := s } rfl (by omega) hx
    (fun m hm hlt => hchain m hm (by omega)) (by omega)
  simpa only [Nat.zero_mul, Nat.sub_zero] using this

/-! ## A run that never returns -/

theorem whileLoop_wrapHalf {σ : Type} (dev : MSU σ) (hdev : NoFailures dev)
    (test fuel iter : Nat) (st : RunState σ) (hst : st.failures = 0)
    (hi : iter = 0 ∨ iter = 2 ^ 63) :
    (whileLoop dev wrapHalf test fuel iter st).1.code = none := by
  have hlt : iter < wrapHalf.t_final := by
    have : wrapHalf.t_final = 2 ^ 64 - 1 := rfl
    omega
  induction fuel generalizing iter st with
  | zero => rw [whileLoop_zero dev wrapHalf test iter st hlt]; rfl
  | succ fuel ih =>
    rw [whileLoop_step dev wrapHalf test fuel iter st hlt]
    have h2 := loopBody_noFailures dev hdev wrapHalf test iter st
    have h1 := loopBody_failures dev wrapHalf test iter st hst (by omega) (by omega)
    have hnext : (loopBody dev wrapHalf test iter st).2.1 = 0 ∨
        (loopBody dev wrapHalf test iter st).2.1 = 2 ^ 63 := by
      have : (loopBody dev wrapHalf test iter st).2.1 = (iter + 2 ^ 63) % 2 ^ 64 := rfl
      rw [this]
      rcases hi with rfl | rfl
      · right; decide
      · left; decide
    have hlt' : (loopBody dev wrapHalf test iter st).2.1 < wrapHalf.t_final := by
      have : wrapHalf.t_final = 2 ^ 64 - 1 := rfl
      omega
    rw [if_neg (by omega)]
    exact ih _ _ (by omega) hnext hlt'

/-- With `t_final = 2 ^ 64 - 1` and the interval `2 ^ 63` the counter wraps to `0`
after every second job: on a device that reports no failures `main` returns for no
amount of fuel. -/
theorem main_wrapHalf_never_returns {σ : Type} (dev : MSU σ) (hdev : NoFailures dev)
    (s0 : σ) (fuel : Nat) : (main dev wrapHalf s0 fuel).1 = none := by
  have h := whileLoop_wrapHalf dev hdev 0 fuel 0
    { sq_in := wrapHalf.sq_in, failures := 0, msu := s0 } rfl (Or.inl rfl)
  have hn : wrapHalf.test_iterations.toNat = 0 + 1 := rfl
  unfold main
  rw [setInterval_of_pos wrapHalf (by decide), hn, forLoop_succ]
  unfold testIteration
  revert h
  generalize whileLoop dev wrapHalf 0 fuel 0 _ = r
  rcases r with ⟨fl, tr⟩
  cases fl with
  | done st' => intro h; cases h
  | ret code => intro h; cases h
  | timeout => intro _; rfl

/-! ## The claims on concrete runs -/

theorem exactDevice_squaresExactly (N r : Int) : SquaresExactly (exactDevice N r) N :=
  fun _ _ _ _ _ => ⟨rfl, rfl⟩

theorem quietDevice_noFailures : NoFailures quietDevice :=
  ⟨fun _ _ _ _ _ => rfl, fun _ _ _ _ _ => rfl⟩

/-- Witness of C1: in two test iterations of ten squarings by three, the second job
reports three failures; it is the last job and `main` returns `3`. -/
theorem failure_short_circuit_witness :
    (main flakyDevice twiceTenByThree 0 4).2.map Job.failures = [0, 3] ∧
      (main flakyDevice twiceTenByThree 0 4).1 = some 3 :=
  ⟨by decide,
    (failure_short_circuit flakyDevice twiceTenByThree 0 4 (by decide)
      [⟨0, 0, true, 0, 3, 2, 0, 1, 3⟩] [] ⟨0, 3, true, 0, 3, 1, 3, 1, 6⟩ (by decide)
      (by decide)).2⟩

/-- Witness of C2: the run whose second job reports three failures returns `3`, the
sum of the counts of its jobs. -/
theorem exit_code_is_failure_sum_witness :
    (main flakyDevice twiceTenByThree 0 4).1 = some 3 ∧
      (3 : Int) = ((main flakyDevice twiceTenByThree 0 4).2.map Job.failures).sum :=
  ⟨by decide,
    ((exit_code_is_failure_sum flakyDevice twiceTenByThree 0 4 (by decide)).1 3
      (by decide)).1⟩

/-- Counterexample to C3: modulo `4` from `2`, the first of two single-squaring jobs
leaves `0`, so the second one takes the random path; with the random start value
`1` the test iteration ends with `1`, while one job of two squarings ends with
`2 ^ (2 ^ 2) % 4 = 0`. -/
theorem chaining_breaks_at_zero :
    SquaresExactly (exactDevice 4 1) 4 ∧
      (testIteration (exactDevice 4 1) twoByOne 0 2
        { sq_in := 2, failures := 0, msu := 0 }).2.map
          (fun j => (j.fixed, j.run_t_final, j.sq_in, j.reduced_out)) =
        [(true, 1, 2, 0), (false, 1, 0, 1)] ∧
      (testIteration (exactDevice 4 1) { twoByOne with intermediate_iters := 2 } 0 2
        { sq_in := 2, failures := 0, msu := 0 }).2.map
          (fun j => (j.fixed, j.run_t_final, j.sq_in, j.reduced_out)) =
        [(true, 2, 2, 0)] ∧
      (2 : Int) ^ (2 ^ 2) % 4 = 0 :=
  ⟨exactDevice_squaresExactly 4 1, by decide, by decide, by decide⟩

theorem pow_two_mod_101 (k : Nat) : (2 : Int) ^ k % 101 ≠ 0 := by
  intro h
  have h1 : (101 : Int) ∣ 2 ^ k := Int.dvd_of_emod_eq_zero h
  have h2 : (101 : Nat) ∣ 2 ^ k := by exact_mod_cast h1
  have h3 : (101 : Nat) ∣ 2 := Nat.Prime.dvd_of_dvd_pow (by norm_num) h2
  have := Nat.le_of_dvd (by decide) h3
  omega

/-- Witness of C3: modulo `101` from `2`, ten squarings end with the same value,
`2 ^ (2 ^ 10) % 101`, whether dispatched by three or in one job; and three jobs of
one squaring end with `2 ^ (2 ^ 3) % 101`, which is `54`. -/
theorem chaining_when_chain_nonzero_witness :
    (∃ st' tr, testIteration (exactDevice 101 1) tenByThree 0 4
        { sq_in := 2, failures := 0, msu := 0 } = (.done st', tr) ∧
      st'.sq_in = 2 ^ (2 ^ tenByThree.t_final) % 101) ∧
    (∃ st' tr, testIteration (exactDevice 101 1) tenByTen 0 4
        { sq_in := 2, failures := 0, msu := 0 } = (.done st', tr) ∧
      st'.sq_in = 2 ^ (2 ^ tenByTen.t_final) % 101) ∧
    (∃ st' tr, testIteration (exactDevice 101 1) threeByOne 0 3
        { sq_in := 2, failures := 0, msu := 0 } = (.done st', tr) ∧
      st'.sq_in = 2 ^ (2 ^ threeByOne.t_final) % 101) ∧
    (2 : Int) ^ (2 ^ 3) % 101 = 54 :=
  ⟨chaining_when_chain_nonzero (exactDevice 101 1) 101 2 (exactDevice_squaresExactly 101 1)
      tenByThree (by decide) (by decide) (by decide) (by decide)
      (fun m _ _ => pow_two_mod_101 (2 ^ m)) 0 4 (by decide) 0,
    chaining_when_chain_nonzero (exactDevice 101 1) 101 2 (exactDevice_squaresExactly 101 1)
      tenByTen (by decide) (by decide) (by decide) (by decide)
      (fun m _ _ => pow_two_mod_101 (2 ^ m)) 0 4 (by decide) 0,
    chaining_when_chain_nonzero (exactDevice 101 1) 101 2 (exactDevice_squaresExactly 101 1)
      threeByOne (by decide) (by decide) (by decide) (by decide)
      (fun m _ _ => pow_two_mod_101 (2 ^ m)) 0 3 (by decide) 0,
    by decide⟩

/-- Counterexample to C4: started with `-s 0x3` modulo `9`, the first job leaves
`3 ^ 2 % 9 = 0` in `reduced_out` and the second job is dispatched through
`run_random`. -/
theorem fixed_run_takes_random_path :
    twoByOneFromThree.sq_in ≠ 0 ∧
      (main (exactDevice 9 2) twoByOneFromThree 0 2).2.map
        (fun j => (j.fixed, j.sq_in, j.reduced_out)) = [(true, 3, 0), (false, 0, 4)] :=
  ⟨by decide, by decide⟩

/-- Witness of C4: started with `-s 0x2` modulo `256` for two test iterations of two
single squarings, the jobs leave `4`, `16`, `0`, `1`; the third job, whose
predecessors left `4` and `16`, is dispatched through `run_fixed` although it
leaves `0` itself and the fourth job takes the random path. -/
theorem fixed_until_zero_left_witness :
    (main (exactDevice 256 1) twiceTwoByOne 0 2).2.map
        (fun j => (j.fixed, j.sq_in, j.reduced_out)) =
      [(true, 2, 4), (true, 4, 16), (true, 16, 0), (false, 0, 1)] ∧
    ∃ j, (main (exactDevice 256 1) twiceTwoByOne 0 2).2[2]? = some j ∧ j.fixed = true :=
  ⟨by decide, ⟨1, 0, true, 0, 1, 16, 0, 0, 1⟩, by decide,
    fixed_until_zero_left (exactDevice 256 1) twiceTwoByOne 0 2 (by decide)
      [⟨0, 0, true, 0, 1, 2, 0, 4, 1⟩, ⟨0, 1, true, 0, 1, 4, 0, 16, 2⟩]
      [⟨1, 1, false, 0, 1, 0, 0, 1, 2⟩] ⟨1, 0, true, 0, 1, 16, 0, 0, 1⟩ (by decide)
      (by decide)⟩

/-- Counterexample to C5: with `t_final = 2 ^ 64 - 1` and nineteen intervals making
`9 * 2 ^ 64 - 1`, the test iteration completes after nineteen jobs of a full
interval each, `9 * 2 ^ 64 - 1` squarings in all. -/
theorem sum_exceeds_target_on_wrap :
    (testIteration quietDevice (setInterval wrapNineteen) 0 19
        { sq_in := 2, failures := 0, msu := () }).1.code = some 0 ∧
      ((testIteration quietDevice (setInterval wrapNineteen) 0 19
        { sq_in := 2, failures := 0, msu := () }).2.map Job.run_t_final).sum =
        9 * 2 ^ 64 - 1 ∧
      ((testIteration quietDevice (setInterval wrapNineteen) 0 19
        { sq_in := 2, failures := 0, msu := () }).2.map Job.run_t_final).sum ≠
        wrapNineteen.t_final ∧
      wrapNineteen.t_final = 2 ^ 64 - 1 ∧
      wrapNineteen.intermediate_iters = 8737931403336103397 :=
  ⟨by decide, by decide, by decide, by decide, by decide⟩

/-- Witness of C5: ten squarings by three are dispatched as jobs whose counts sum
to `10`. -/
theorem iteration_counts_sum_to_target_witness :
    ∃ st' tr, testIteration quietDevice (setInterval tenByThree) 0 4
        { sq_in := 2, failures := 0, msu := () } = (.done st', tr) ∧
      (tr.map Job.run_t_final).sum = tenByThree.t_final :=
  iteration_counts_sum_to_target quietDevice quietDevice_noFailures tenByThree (by decide) 0 4
    { sq_in := 2, failures := 0, msu := () } rfl (by decide)

/-- Witness of C6: the last job of ten squarings by three has an iteration count
between `1` and `3`. -/
theorem job_count_within_interval_witness :
    ∃ j, (main (exactDevice 101 1) tenByThree 0 4).2.getLast? = some j ∧
      1 ≤ j.run_t_final ∧ j.run_t_final ≤ 3 :=
  ⟨⟨0, 9, true, 0, 1, 56, 0, 5, 12⟩, by decide,
    job_count_within_interval (exactDevice 101 1) tenByThree 0 4 (by decide)
      ⟨0, 9, true, 0, 1, 56, 0, 5, 12⟩ (by decide)⟩

/-- Witness of C7: five squarings with no interval given are one job of five. -/
theorem default_interval_single_job_witness :
    (testIteration (exactDevice 101 1) (setInterval fiveUnset) 0 1
        { sq_in := 2, failures := 0, msu := 0 }).1.code ≠ none ∧
      ∃ j, (testIteration (exactDevice 101 1) (setInterval fiveUnset) 0 1
        { sq_in := 2, failures := 0, msu := 0 }).2 = [j] ∧ j.run_t_final = fiveUnset.t_final :=
  default_interval_single_job (exactDevice 101 1) fiveUnset rfl (by decide) (by decide) 0 1
    (by decide) { sq_in := 2, failures := 0, msu := 0 }

/-- Counterexample to C8: started with `-s 0x2` for two test iterations of one
squaring each, the second test iteration starts from `4`, the result of the first,
not from `2`. -/
theorem second_test_iteration_starts_from_result :
    (main (exactDevice 101 1) twoTests 0 1).2.map
        (fun j => (j.test, j.iter, j.fixed, j.sq_in, j.reduced_out)) =
      [(0, 0, true, 2, 4), (1, 0, true, 4, 16)] := by
  decide

/-- Counterexample to C9: for ten squarings by three, the counter is `12` after the
fourth and last job, when ten squarings have been dispatched. -/
theorem counter_overshoots_target :
    (testIteration quietDevice tenByThree 0 4
        { sq_in := 2, failures := 0, msu := () }).2.map Job.params =
      [(0, 3, 3), (3, 3, 6), (6, 3, 9), (9, 1, 12)] ∧
      (testIteration quietDevice tenByThree 0 4
        { sq_in := 2, failures := 0, msu := () }).1.code = some 0 ∧
      3 + 3 + 3 + 1 = tenByThree.t_final :=
  ⟨by decide, by decide, by decide⟩

/-- Witness of C9: ten squarings by three. -/
theorem counter_caps_at_target_witness :
    ∃ st' tr, testIteration quietDevice tenByThree 0 4
        { sq_in := 2, failures := 0, msu := () } = (.done st', tr) ∧
      ∀ i j, tr[i]? = some j →
        j.iter_after = (i + 1) * tenByThree.intermediate_iters ∧
        ((tr.take (i + 1)).map Job.run_t_final).sum = min j.iter_after tenByThree.t_final :=
  counter_caps_at_target quietDevice quietDevice_noFailures tenByThree (by decide) (by decide)
    0 4 { sq_in := 2, failures := 0, msu := () } rfl (by decide)

/-- Counterexample to C10: with `t_final = 2 ^ 64 - 1` and nine intervals making
`4 * 2 ^ 64 - 1`, `main` returns `0` after nine jobs, while
`test_iterations * ceil(t_final / c)` is `3`. -/
theorem nine_jobs_on_wrap :
    (main quietDevice wrapNine () 9).1 = some 0 ∧
      (main quietDevice wrapNine () 9).2.length = 9 ∧
      wrapNine.test_iterations.toNat *
        ceilDiv wrapNine.t_final wrapNine.intermediate_iters = 3 ∧
      wrapNine.t_final = 2 ^ 64 - 1 ∧
      wrapNine.intermediate_iters = 8198552921648689607 :=
  ⟨by decide, by decide, by decide, by decide, by decide⟩

/-- Witness of C10: two test iterations of ten squarings by three are eight jobs. -/
theorem job_count_without_wrap_witness :
    (main quietDevice twiceTenByThree () 4).1 = some 0 ∧
      (main quietDevice twiceTenByThree () 4).2.length =
        twiceTenByThree.test_iterations.toNat *
          ceilDiv twiceTenByThree.t_final twiceTenByThree.intermediate_iters :=
  job_count_without_wrap quietDevice quietDevice_noFailures twiceTenByThree (by decide)
    (by decide) () 4 (by decide)

end Msu
